import Mathlib

/-!
Shallow embedding of the time-series synchronization and binning core of
`brainbox/processing/processing.py`: the functions `sync`, `bincount2D`,
`bin_spikes` and `get_units_bunch`, together with theorems checking the
specification's claims about them.

Conventions of the embedding:
* float64 values are modelled as exact rationals (`ℚ`), numpy arrays as lists;
* Python exceptions are modelled with `Except`;
* the non-finite float values (NaN, plus and minus infinity) that `sync`
  checks for are modelled by the type `NpVal`;
* numpy and pandas primitives called by the code (`np.arange`, `np.unique`,
  `np.bincount`, `np.ravel_multi_index`, `np.amin`, `np.amax`,
  `pd.interval_range`) are embedded from their documented behaviour.
  Reductions of empty arrays raise in numpy; the corresponding list functions
  here return a junk value and the theorems carry nonemptiness hypotheses,
  except where a claim is precisely about the raised error.
-/

namespace Brainbox

/-- Minimum of a list of rationals, `np.min` on a nonempty array
(junk value `0` on `[]`, where numpy raises). -/
def qMin : List ℚ → ℚ
  | [] => 0
  | a :: t => t.foldl min a

/-- Maximum of a list of rationals, `np.max` on a nonempty array
(junk value `0` on `[]`, where numpy raises). -/
def qMax : List ℚ → ℚ
  | [] => 0
  | a :: t => t.foldl max a

/-- Maximum of a list of naturals, `np.max` on a nonempty array
(junk value `0` on `[]`, where numpy raises). -/
def natMax : List ℕ → ℕ
  | [] => 0
  | a :: t => t.foldl max a

/-- Number of points of `np.arange lo hi step` for a positive `step`:
the count of naturals `k` with `lo + k * step < hi`. -/
def arangeLen (lo hi step : ℚ) : ℕ := (⌈(hi - lo) / step⌉).toNat

/-- Embedding of `np.arange lo hi step` for a positive `step`: the points
`lo + k * step` that are strictly below `hi`. -/
def arange (lo hi step : ℚ) : List ℚ :=
  (List.range (arangeLen lo hi step)).map fun k : ℕ => lo + (k : ℚ) * step

/-- Embedding of `np.unique`: the sorted distinct values of the input. -/
def npUnique (v : List ℚ) : List ℚ := v.dedup.insertionSort (· ≤ ·)

/-- Bin index `floor ((t - lo) / w)` assigned by `bincount2D` on a regular
axis with bin width `w` and lower bound `lo` (processing.py lines 135 and 140). -/
def binIndex (lo w t : ℚ) : ℤ := ⌊(t - lo) / w⌋

/-- Default axis limits of `bincount2D`: the explicit limits when supplied,
otherwise `[np.min v, np.max v]` (processing.py lines 127-130); numpy raises
on an empty array when the limits are defaulted. -/
def defaultLim (v : List ℚ) (lim : Option (ℚ × ℚ)) : Except String (ℚ × ℚ) :=
  match lim with
  | some l => .ok l
  | none =>
    match v with
    | [] => .error "zero-size array to reduction operation"
    | a :: t => .ok (qMin (a :: t), qMax (a :: t))

/-- One axis of `bincount2D`: the scale and the per-value indices
(processing.py lines 133-142).  A nonzero bin width gives the regular scale
`np.arange lim.1 (lim.2 + bin / 2) bin` and index `floor ((t - lim.1) / bin)`
for each value `t`; bin width `0` aggregates over the unique values, each value
indexed by its position in the sorted unique scale. -/
def scaleIndex (v : List ℚ) (bin : ℚ) (lim : ℚ × ℚ) : List ℚ × List ℤ :=
  if bin ≠ 0 then
    (arange lim.1 (lim.2 + bin / 2) bin, v.map fun t => binIndex lim.1 bin t)
  else
    (npUnique v, v.map fun t => ((npUnique v).indexOf t : ℤ))

/-- Embedding of `np.ravel_multi_index` in its default `raise` mode, applied to
the rows of `np.c_[yind, xind]`: every coordinate pair must satisfy
`0 ≤ j < ny` and `0 ≤ i < nx`, otherwise a ValueError is raised; in-range
pairs flatten to `j * nx + i`. -/
def ravelPairs (ny nx : ℕ) : List (ℤ × ℤ) → Except String (List ℕ)
  | [] => .ok []
  | p :: rest =>
    if 0 ≤ p.1 ∧ p.1 < (ny : ℤ) ∧ 0 ≤ p.2 ∧ p.2 < (nx : ℤ) then
      match ravelPairs ny nx rest with
      | .ok l => .ok ((p.1.toNat * nx + p.2.toNat) :: l)
      | .error e => .error e
    else .error "invalid entry in coordinates array"

/-- Flattening of the paired y and x indices (processing.py line 146). -/
def ravelMultiIndex (yind xind : List ℤ) (ny nx : ℕ) : Except String (List ℕ) :=
  ravelPairs ny nx (yind.zip xind)

/-- Embedding of `np.bincount` with minlength `m` and weights `w`: entry `k`
sums the weights at the positions whose index equals `k`.  All indices coming
out of `ravelMultiIndex` are below `m = nx * ny`, so the output length is
exactly `m`, as in the source. -/
def npBincount (ind : List ℕ) (m : ℕ) (w : List ℚ) : List ℚ :=
  (List.range m).map fun k => (((ind.zip w).filter fun p => p.1 = k).map Prod.snd).sum

/-- Reshape a flat array into `ny` rows of `nx` entries: row `j` holds the
slice of the flat array from position `j * nx` to `(j + 1) * nx`. -/
def reshape : List ℚ → ℕ → ℕ → List (List ℚ)
  | _, 0, _ => []
  | flat, ny + 1, nx => flat.take nx :: reshape (flat.drop nx) ny nx

/-- The triple returned by `bincount2D`: the aggregated grid of shape
`ny × nx`, the x scale and the y scale. -/
structure BinResult where
  grid : List (List ℚ)
  xscale : List ℚ
  yscale : List ℚ
deriving DecidableEq

/-- Embedding of `bincount2D` (processing.py lines 113-148). -/
def bincount2D (x y : List ℚ) (xbin ybin : ℚ) (xlim ylim : Option (ℚ × ℚ))
    (weights : Option (List ℚ)) : Except String BinResult :=
  match defaultLim x xlim with
  | .error e => .error e
  | .ok xl =>
    match defaultLim y ylim with
    | .error e => .error e
    | .ok yl =>
      let xs := scaleIndex x xbin xl
      let ys := scaleIndex y ybin yl
      match ravelMultiIndex ys.2 xs.2 ys.1.length xs.1.length with
      | .error e => .error e
      | .ok ind2d =>
        .ok ⟨reshape (npBincount ind2d (xs.1.length * ys.1.length)
               (weights.getD (List.replicate x.length 1))) ys.1.length xs.1.length,
             xs.1, ys.1⟩

/-- Model of one float64 timestamp: a finite rational, NaN, or one of the two
infinities. -/
inductive NpVal where
  | finite (q : ℚ)
  | nan
  | inf
  | ninf
deriving DecidableEq

/-- Embedding of `np.isfinite` on one value. -/
def NpVal.isfinite : NpVal → Bool
  | finite _ => true
  | _ => false

/-- Pairwise minimum with numpy reduction semantics: NaN propagates, minus
infinity absorbs, plus infinity yields the other operand. -/
def NpVal.min2 : NpVal → NpVal → NpVal
  | nan, _ => nan
  | _, nan => nan
  | ninf, _ => ninf
  | _, ninf => ninf
  | inf, b => b
  | a, inf => a
  | finite a, finite b => finite (min a b)

/-- Pairwise maximum with numpy reduction semantics. -/
def NpVal.max2 : NpVal → NpVal → NpVal
  | nan, _ => nan
  | _, nan => nan
  | inf, _ => inf
  | _, inf => inf
  | ninf, b => b
  | a, ninf => a
  | finite a, finite b => finite (max a b)

/-- Offsetting a timestamp by a finite per-series offset (`ts.times + os`);
non-finite values stay non-finite of the same kind. -/
def NpVal.addQ : NpVal → ℚ → NpVal
  | finite a, q => finite (a + q)
  | v, _ => v

/-- Embedding of `np.amin` on a nonempty array (junk value `nan` on `[]`,
where numpy raises). -/
def npAmin : List NpVal → NpVal
  | [] => .nan
  | a :: t => t.foldl NpVal.min2 a

/-- Embedding of `np.amax` on a nonempty array. -/
def npAmax : List NpVal → NpVal
  | [] => .nan
  | a :: t => t.foldl NpVal.max2 a

/-- The fill-value argument of `sync`: either the string literal
"extrapolate", or a constant fill value (numpy NaN by default). -/
inductive FillVal where
  | extrapolate
  | const (v : NpVal)
deriving DecidableEq

/-- Python float modulo `a % b` (the result carries the sign of the divisor):
`a - b * floor (a / b)`. -/
def qmod (a b : ℚ) : ℚ := a - b * ⌊a / b⌋

/-- The 0.01 percent fudge factor of processing.py line 104, the float
literal `1.0001`. -/
def fudge : ℚ := 10001 / 10000

/-- The output grid `newt` of `sync` (processing.py lines 100-106): with the
extrapolate fill policy the upper bound is pushed past `tmax` by the fudged
remainder to the next multiple of `dt`; otherwise `np.arange tmin tmax dt`. -/
def syncGrid (dt tmin tmax : ℚ) (fillval : FillVal) : List ℚ :=
  if fillval = FillVal.extrapolate then
    arange tmin (tmax + fudge * (dt - qmod (tmax - tmin) dt)) dt
  else
    arange tmin tmax dt

/-- Per-series offsets (processing.py lines 76-79): `ts.times + os` for the
paired series and offsets, or the unchanged series when no offsets are given. -/
def applyOffsets (tss : List (List NpVal)) (offsets : Option (List ℚ)) :
    List (List NpVal) :=
  match offsets with
  | some os => (tss.zip os).map fun p => p.1.map fun v => v.addQ p.2
  | none => tss

/-- The message of the ValueError raised by `sync` on non-finite timestamps. -/
def nanMsg : String := "NaN or inf encountered in passed timeseries."

/-- The timestamp pipeline of `sync` (processing.py lines 75-106): apply the
per-series offsets, take per-series bounds with `np.amin` and `np.amax`, check
all bounds are finite (raising the ValueError otherwise), and build the shared
output grid `newt` from the global bounds.  Interpolation of the values onto
the grid happens in the source only after `newt` is built and is not part of
this embedding. -/
def syncTimes (dt : ℚ) (tss : List (List NpVal)) (offsets : Option (List ℚ))
    (fillval : FillVal) : Except String (List ℚ) :=
  let tstamps := applyOffsets tss offsets
  let tbounds := tstamps.map fun ts => (npAmin ts, npAmax ts)
  if tbounds.all fun b => b.1.isfinite && b.2.isfinite then
    match npAmin (tbounds.map Prod.fst), npAmax (tbounds.map Prod.snd) with
    | .finite tmin, .finite tmax => .ok (syncGrid dt tmin tmax fillval)
    | _, _ => .error "non-finite bounds"
  else
    .error nanMsg

/-- The global minimum timestamp over a family of finite series. -/
def gmin (tss : List (List ℚ)) : ℚ := qMin (tss.map qMin)

/-- The global maximum timestamp over a family of finite series. -/
def gmax (tss : List (List ℚ)) : ℚ := qMax (tss.map qMax)

/-- The input of `bin_spikes`: either a value that is not a
`brainbox.core.TimeSeries` at all, or a TimeSeries with timestamps and an
optional `clusters` attribute. -/
inductive SpikeInput where
  | notTS
  | ts (times : List ℚ) (clusters : Option (List ℚ))

/-- The errors `bin_spikes` can raise: the TypeError for a non-TimeSeries
input, the AttributeError for a missing `clusters` attribute, or an error
propagated from `bincount2D`. -/
inductive BinSpikesErr where
  | typeErr
  | attrErr
  | binErr (msg : String)
deriving DecidableEq

/-- The timestamps of the binned output: left bin edges, or the left-closed
interval labels produced by `pd.interval_range` (each pair is the label of
the half-open interval from its first to its second component). -/
inductive BinTimes where
  | edges (ts : List ℚ)
  | intervals (iv : List (ℚ × ℚ))
deriving DecidableEq

/-- The TimeSeries returned by `bin_spikes`: timestamps, the `T × N` value
matrix (rows are time bins), and the cluster column labels. -/
structure BinnedTS where
  btimes : BinTimes
  values : List (List ℚ)
  columns : List ℚ
deriving DecidableEq

/-- numpy transpose of a rectangular two-dimensional array. -/
def transposeGrid : List (List ℚ) → List (List ℚ)
  | [] => []
  | r :: rest => (List.range r.length).map fun i =>
      (r :: rest).map fun row => row.getD i 0

/-- Embedding of `pd.interval_range start stop freq` with left-closed
intervals: the consecutive pairs from `start` to `stop`, stepped by `freq`. -/
def intervalRange (start stop freq : ℚ) : List (ℚ × ℚ) :=
  (List.range (⌊(stop - start) / freq⌋).toNat).map fun k : ℕ =>
    (start + (k : ℚ) * freq, start + ((k : ℚ) + 1) * freq)

/-- Embedding of `bin_spikes` (processing.py lines 151-181). -/
def bin_spikes (spikes : SpikeInput) (binsize : ℚ) (intervalIndices : Bool) :
    Except BinSpikesErr BinnedTS :=
  match spikes with
  | .notTS => .error .typeErr
  | .ts _ none => .error .attrErr
  | .ts times (some clusters) =>
    match bincount2D times clusters binsize 0 none none none with
    | .error m => .error (.binErr m)
    | .ok res =>
      if intervalIndices then
        .ok ⟨.intervals (intervalRange (res.xscale.headD 0) (res.xscale.getLastD 0) binsize),
             (transposeGrid res.grid).dropLast, res.yscale⟩
      else
        .ok ⟨.edges res.xscale, transposeGrid res.grid, res.yscale⟩

/-- Values of `feat` at the spike positions whose cluster id equals `u`:
`spks[key][np.where(spks_unit_id == unit)[0]]` (processing.py lines 240-241). -/
def selectUnit (clusters : List ℕ) (feat : List ℚ) (u : ℕ) : List ℚ :=
  ((clusters.zip feat).filter fun p => p.1 = u).map Prod.snd

/-- The per-feature mapping built by `get_units_bunch` (processing.py lines
236-242): one key `repr u` for each unit id `u` in `0 .. np.max clusters`
inclusive, mapped to that unit's values of `feat`. -/
def unitsBunchFeature (clusters : List ℕ) (feat : List ℚ) : List (String × List ℚ) :=
  (List.range (natMax clusters + 1)).map fun u => (toString u, selectUnit clusters feat u)

/-- Embedding of `get_units_bunch` (processing.py lines 184-245) over an
association list of feature arrays, all parallel to `clusters`. -/
def get_units_bunch (clusters : List ℕ) (feats : List (String × List ℚ)) :
    List (String × List (String × List ℚ)) :=
  feats.map fun kf => (kf.1, unitsBunchFeature clusters kf.2)

/-! ### Basic lemmas about the list reductions -/

lemma foldl_min_le_init {α : Type} [LinearOrder α] (t : List α) (a : α) :
    t.foldl min a ≤ a := by
  induction t generalizing a with
  | nil => exact le_refl a
  | cons b t ih => exact le_trans (ih (min a b)) (min_le_left a b)

lemma foldl_min_le_mem {α : Type} [LinearOrder α] {v : α} (t : List α) (a : α)
    (hv : v ∈ t) : t.foldl min a ≤ v := by
  induction t generalizing a with
  | nil => cases hv
  | cons b t ih =>
    rcases List.mem_cons.mp hv with h | h
    · subst h
      exact le_trans (foldl_min_le_init t (min a v)) (min_le_right a v)
    · exact ih (min a b) h

lemma qMin_le {v : ℚ} {l : List ℚ} (hv : v ∈ l) : qMin l ≤ v := by
  cases l with
  | nil => cases hv
  | cons a t =>
    rcases List.mem_cons.mp hv with h | h
    · subst h; exact foldl_min_le_init t v
    · exact foldl_min_le_mem t a h

lemma init_le_foldl_max {α : Type} [LinearOrder α] (t : List α) (a : α) :
    a ≤ t.foldl max a := by
  induction t generalizing a with
  | nil => exact le_refl a
  | cons b t ih => exact le_trans (le_max_left a b) (ih (max a b))

lemma mem_le_foldl_max {α : Type} [LinearOrder α] {v : α} (t : List α) (a : α)
    (hv : v ∈ t) : v ≤ t.foldl max a := by
  induction t generalizing a with
  | nil => cases hv
  | cons b t ih =>
    rcases List.mem_cons.mp hv with h | h
    · subst h
      exact le_trans (le_max_right a v) (init_le_foldl_max t (max a v))
    · exact ih (max a b) h

lemma le_qMax {v : ℚ} {l : List ℚ} (hv : v ∈ l) : v ≤ qMax l := by
  cases l with
  | nil => cases hv
  | cons a t =>
    rcases List.mem_cons.mp hv with h | h
    · subst h; exact init_le_foldl_max t v
    · exact mem_le_foldl_max t a h

lemma le_natMax {v : ℕ} {l : List ℕ} (hv : v ∈ l) : v ≤ natMax l := by
  cases l with
  | nil => cases hv
  | cons a t =>
    rcases List.mem_cons.mp hv with h | h
    · subst h; exact init_le_foldl_max t v
    · exact mem_le_foldl_max t a h

/-! ### Lemmas about `arange` -/

lemma length_arange (lo hi step : ℚ) : (arange lo hi step).length = arangeLen lo hi step := by
  rw [arange, List.length_map, List.length_range]

lemma arange_getElem? (lo hi step : ℚ) {k : ℕ} (hk : k < arangeLen lo hi step) :
    (arange lo hi step)[k]? = some (lo + (k : ℚ) * step) := by
  rw [arange, List.getElem?_map, List.getElem?_range hk, Option.map_some']

lemma arange_getLast? (lo hi step : ℚ) (h : 0 < arangeLen lo hi step) :
    (arange lo hi step).getLast? =
      some (lo + ((arangeLen lo hi step : ℚ) - 1) * step) := by
  obtain ⟨m, hm⟩ := Nat.exists_eq_succ_of_ne_zero (Nat.pos_iff_ne_zero.mp h)
  rw [arange, hm, List.range_succ, List.map_append, List.map_singleton,
    List.getLast?_concat]
  congr 1
  push_cast
  ring

lemma mem_arange {t lo hi step : ℚ} :
    t ∈ arange lo hi step ↔ ∃ k < arangeLen lo hi step, t = lo + (k : ℚ) * step := by
  rw [arange]
  simp only [List.mem_map, List.mem_range]
  constructor
  · rintro ⟨k, hk, rfl⟩; exact ⟨k, hk, rfl⟩
  · rintro ⟨k, hk, rfl⟩; exact ⟨k, hk, rfl⟩

lemma arangeLen_pos {lo hi step : ℚ} (hstep : 0 < step) (h : lo < hi) :
    0 < arangeLen lo hi step := by
  have h1 : (0 : ℚ) < (hi - lo) / step := div_pos (by linarith) hstep
  exact Int.lt_toNat.mpr (Int.ceil_pos.mpr h1)

lemma cast_arangeLen {lo hi step : ℚ} (hstep : 0 < step) (h : lo < hi) :
    ((arangeLen lo hi step : ℤ)) = ⌈(hi - lo) / step⌉ := by
  have : (0 : ℚ) < (hi - lo) / step := div_pos (by linarith) hstep
  exact Int.toNat_of_nonneg (le_of_lt (Int.ceil_pos.mpr this))

lemma arange_lt_of_lt_len {lo hi step : ℚ} (hstep : 0 < step) {k : ℕ}
    (hk : k < arangeLen lo hi step) : lo + k * step < hi := by
  have hceil : (k : ℤ) < ⌈(hi - lo) / step⌉ := Int.lt_toNat.mp hk
  have h1 : ((k : ℚ)) ≤ (⌈(hi - lo) / step⌉ : ℚ) - 1 := by
    have : (k : ℤ) ≤ ⌈(hi - lo) / step⌉ - 1 := by omega
    exact_mod_cast this
  have h2 : ((⌈(hi - lo) / step⌉ : ℚ)) - 1 < (hi - lo) / step := by
    have := Int.ceil_lt_add_one ((hi - lo) / step)
    linarith
  have h3 : (k : ℚ) * step < hi - lo := by
    have h4 : (k : ℚ) < (hi - lo) / step := lt_of_le_of_lt h1 h2
    calc (k : ℚ) * step < ((hi - lo) / step) * step :=
          mul_lt_mul_of_pos_right h4 hstep
      _ = hi - lo := div_mul_cancel₀ _ (ne_of_gt hstep)
  linarith

/-! ### Partition lemmas for the aggregation step -/

lemma sum_map_range {M : Type} [AddCommMonoid M] (n : ℕ) (f : ℕ → M) :
    ((List.range n).map f).sum = ∑ k ∈ Finset.range n, f k := by
  induction n with
  | zero => simp
  | succ n ih =>
    rw [List.range_succ, List.map_append, List.sum_append, Finset.sum_range_succ, ih]
    simp

lemma partition_sum {α M : Type} [AddCommMonoid M] (key : α → ℕ) (val : α → M)
    (l : List α) (n : ℕ) (h : ∀ a ∈ l, key a < n) :
    ((List.range n).map fun k => ((l.filter fun a => key a = k).map val).sum).sum
      = (l.map val).sum := by
  induction l with
  | nil => simp
  | cons a t ih =>
    have ha : key a < n := h a (List.mem_cons_self a t)
    have ht : ∀ b ∈ t, key b < n := fun b hb => h b (List.mem_cons_of_mem a hb)
    rw [sum_map_range]
    have step : ∀ k : ℕ,
        (((a :: t).filter fun x => key x = k).map val).sum
          = (if key a = k then val a else 0)
            + ((t.filter fun x => key x = k).map val).sum := by
      intro k
      by_cases hak : key a = k
      · simp [List.filter_cons, hak]
      · simp [List.filter_cons, hak]
    calc ∑ k ∈ Finset.range n, (((a :: t).filter fun x => key x = k).map val).sum
        = ∑ k ∈ Finset.range n, ((if key a = k then val a else 0)
            + ((t.filter fun x => key x = k).map val).sum) :=
          Finset.sum_congr rfl fun k _ => step k
      _ = (∑ k ∈ Finset.range n, if key a = k then val a else 0)
            + ∑ k ∈ Finset.range n, ((t.filter fun x => key x = k).map val).sum :=
          Finset.sum_add_distrib
      _ = val a + (t.map val).sum := by
          rw [Finset.sum_ite_eq (Finset.range n) (key a) fun _ => val a,
            if_pos (Finset.mem_range.mpr ha), ← sum_map_range, ih ht]
      _ = ((a :: t).map val).sum := by simp

/-! ### Lemmas about `ravelPairs`, `npBincount` and `reshape` -/

lemma ravelPairs_ok {ny nx : ℕ} (l : List (ℤ × ℤ))
    (h : ∀ p ∈ l, 0 ≤ p.1 ∧ p.1 < (ny : ℤ) ∧ 0 ≤ p.2 ∧ p.2 < (nx : ℤ)) :
    ravelPairs ny nx l = .ok (l.map fun p => p.1.toNat * nx + p.2.toNat) := by
  induction l with
  | nil => rfl
  | cons p rest ih =>
    have hp := h p (List.mem_cons_self p rest)
    have hr := ih fun q hq => h q (List.mem_cons_of_mem p hq)
    simp only [ravelPairs, if_pos hp, hr, List.map_cons]

lemma ravelPairs_err {ny nx : ℕ} (l : List (ℤ × ℤ)) (p : ℤ × ℤ) (hp : p ∈ l)
    (hbad : ¬(0 ≤ p.1 ∧ p.1 < (ny : ℤ) ∧ 0 ≤ p.2 ∧ p.2 < (nx : ℤ))) :
    ∃ e, ravelPairs ny nx l = .error e := by
  induction l with
  | nil => cases hp
  | cons q rest ih =>
    by_cases hq : 0 ≤ q.1 ∧ q.1 < (ny : ℤ) ∧ 0 ≤ q.2 ∧ q.2 < (nx : ℤ)
    · have hpr : p ∈ rest := by
        rcases List.mem_cons.mp hp with h | h
        · subst h; exact absurd hq hbad
        · exact h
      obtain ⟨e, he⟩ := ih hpr
      exact ⟨e, by simp only [ravelPairs, if_pos hq, he]⟩
    · exact ⟨"invalid entry in coordinates array", by simp only [ravelPairs, if_neg hq]⟩

lemma ravel_encode_lt {ny nx : ℕ} {p : ℤ × ℤ}
    (hp : 0 ≤ p.1 ∧ p.1 < (ny : ℤ) ∧ 0 ≤ p.2 ∧ p.2 < (nx : ℤ)) :
    p.1.toNat * nx + p.2.toNat < nx * ny := by
  obtain ⟨h1, h2, h3, h4⟩ := hp
  have hj : p.1.toNat < ny := by omega
  have hi : p.2.toNat < nx := by omega
  calc p.1.toNat * nx + p.2.toNat < p.1.toNat * nx + nx := by omega
    _ = (p.1.toNat + 1) * nx := by ring
    _ ≤ ny * nx := Nat.mul_le_mul_right nx hj
    _ = nx * ny := Nat.mul_comm ny nx

lemma npBincount_length (ind : List ℕ) (m : ℕ) (w : List ℚ) :
    (npBincount ind m w).length = m := by
  rw [npBincount, List.length_map, List.length_range]

lemma npBincount_sum (ind : List ℕ) (m : ℕ) (w : List ℚ)
    (h : ∀ i ∈ ind, i < m) (hlen : w.length ≤ ind.length) :
    (npBincount ind m w).sum = w.sum := by
  rw [npBincount]
  have h2 : ∀ p ∈ ind.zip w, Prod.fst p < m := fun p hp => h p.1 (List.of_mem_zip hp).1
  rw [partition_sum Prod.fst Prod.snd (ind.zip w) m h2, List.map_snd_zip ind w hlen]

lemma reshape_length (flat : List ℚ) (ny nx : ℕ) : (reshape flat ny nx).length = ny := by
  induction ny generalizing flat with
  | zero => rfl
  | succ n ih => simp [reshape, ih]

lemma reshape_sum (flat : List ℚ) (ny nx : ℕ) (h : flat.length = ny * nx) :
    ((reshape flat ny nx).map List.sum).sum = flat.sum := by
  induction ny generalizing flat with
  | zero =>
    have hnil : flat = [] := List.eq_nil_of_length_eq_zero (by simpa using h)
    subst hnil; rfl
  | succ n ih =>
    have hdrop : (flat.drop nx).length = n * nx := by
      rw [List.length_drop, h]
      have hsucc : (n + 1) * nx = n * nx + nx := by ring
      omega
    calc ((reshape flat (n + 1) nx).map List.sum).sum
        = (flat.take nx).sum + ((reshape (flat.drop nx) n nx).map List.sum).sum := by
          simp [reshape]
      _ = (flat.take nx).sum + (flat.drop nx).sum := by rw [ih _ hdrop]
      _ = flat.sum := by rw [← List.sum_append, List.take_append_drop]

lemma reshape_row_length (flat : List ℚ) (ny nx : ℕ) (h : flat.length = ny * nx)
    {row : List ℚ} (hrow : row ∈ reshape flat ny nx) : row.length = nx := by
  induction ny generalizing flat with
  | zero => cases hrow
  | succ n ih =>
    have hsucc : (n + 1) * nx = n * nx + nx := by ring
    rw [reshape] at hrow
    rcases List.mem_cons.mp hrow with hr | hr
    · subst hr
      rw [List.length_take]
      omega
    · exact ih (flat.drop nx) (by rw [List.length_drop, h]; omega) hr

/-! ### Lemmas about `npUnique` and the bin-0 indices -/

lemma mem_npUnique {v : ℚ} {l : List ℚ} : v ∈ npUnique l ↔ v ∈ l := by
  rw [npUnique, List.mem_insertionSort, List.mem_dedup]

lemma npUnique_ne_nil {l : List ℚ} (h : l ≠ []) : npUnique l ≠ [] := by
  cases l with
  | nil => exact absurd rfl h
  | cons a t => exact List.ne_nil_of_mem (mem_npUnique.mpr (List.mem_cons_self a t))

/-! ### The success shape of `bincount2D` -/

lemma bincount2D_ok (x y : List ℚ) (xbin ybin : ℚ) (xlim ylim : Option (ℚ × ℚ))
    (weights : Option (List ℚ)) (xl yl : ℚ × ℚ)
    (hxl : defaultLim x xlim = .ok xl) (hyl : defaultLim y ylim = .ok yl)
    (hrange : ∀ p ∈ (scaleIndex y ybin yl).2.zip (scaleIndex x xbin xl).2,
      0 ≤ p.1 ∧ p.1 < ((scaleIndex y ybin yl).1.length : ℤ) ∧
      0 ≤ p.2 ∧ p.2 < ((scaleIndex x xbin xl).1.length : ℤ)) :
    bincount2D x y xbin ybin xlim ylim weights =
      .ok ⟨reshape (npBincount
            (((scaleIndex y ybin yl).2.zip (scaleIndex x xbin xl).2).map
              fun p => p.1.toNat * (scaleIndex x xbin xl).1.length + p.2.toNat)
            ((scaleIndex x xbin xl).1.length * (scaleIndex y ybin yl).1.length)
            (weights.getD (List.replicate x.length 1)))
          (scaleIndex y ybin yl).1.length (scaleIndex x xbin xl).1.length,
        (scaleIndex x xbin xl).1, (scaleIndex y ybin yl).1⟩ := by
  unfold bincount2D ravelMultiIndex
  rw [hxl, hyl]
  dsimp only
  rw [ravelPairs_ok _ hrange]

/-! ### Lemmas about `NpVal` reductions and the `sync` timestamp pipeline -/

lemma isfinite_iff {v : NpVal} : v.isfinite = true ↔ ∃ q, v = .finite q := by
  cases v <;> simp [NpVal.isfinite]

lemma foldl_min2_finite (t : List ℚ) (a : ℚ) :
    (t.map NpVal.finite).foldl NpVal.min2 (.finite a) = .finite (t.foldl min a) := by
  induction t generalizing a with
  | nil => rfl
  | cons b t ih =>
    rw [List.map_cons, List.foldl_cons, List.foldl_cons]
    exact ih (min a b)

lemma foldl_max2_finite (t : List ℚ) (a : ℚ) :
    (t.map NpVal.finite).foldl NpVal.max2 (.finite a) = .finite (t.foldl max a) := by
  induction t generalizing a with
  | nil => rfl
  | cons b t ih =>
    rw [List.map_cons, List.foldl_cons, List.foldl_cons]
    exact ih (max a b)

lemma npAmin_map_finite {l : List ℚ} (h : l ≠ []) :
    npAmin (l.map NpVal.finite) = .finite (qMin l) := by
  cases l with
  | nil => exact absurd rfl h
  | cons a t =>
    rw [List.map_cons, npAmin, qMin]
    exact foldl_min2_finite t a

lemma npAmax_map_finite {l : List ℚ} (h : l ≠ []) :
    npAmax (l.map NpVal.finite) = .finite (qMax l) := by
  cases l with
  | nil => exact absurd rfl h
  | cons a t =>
    rw [List.map_cons, npAmax, qMax]
    exact foldl_max2_finite t a

lemma min2_nan_left (b : NpVal) : NpVal.min2 .nan b = .nan := by cases b <;> rfl

lemma min2_nan_right (a : NpVal) : NpVal.min2 a .nan = .nan := by cases a <;> rfl

lemma min2_ninf_right (a : NpVal) :
    NpVal.min2 a .ninf = .nan ∨ NpVal.min2 a .ninf = .ninf := by
  cases a with
  | finite q => exact Or.inr rfl
  | nan => exact Or.inl rfl
  | inf => exact Or.inr rfl
  | ninf => exact Or.inr rfl

lemma min2_absorb {a : NpVal} (h : a = .nan ∨ a = .ninf) (b : NpVal) :
    NpVal.min2 a b = .nan ∨ NpVal.min2 a b = .ninf := by
  rcases h with rfl | rfl
  · exact Or.inl (min2_nan_left b)
  · cases b with
    | finite q => exact Or.inr rfl
    | nan => exact Or.inl (min2_nan_right _)
    | inf => exact Or.inr rfl
    | ninf => exact Or.inr rfl

lemma foldl_min2_absorb (t : List NpVal) {a : NpVal} (h : a = .nan ∨ a = .ninf) :
    (t.foldl NpVal.min2 a).isfinite = false := by
  induction t generalizing a with
  | nil => rcases h with rfl | rfl <;> rfl
  | cons b t ih => exact ih (min2_absorb h b)

lemma foldl_min2_mem_nonfinite (t : List NpVal) (a : NpVal) {v : NpVal}
    (hv : v ∈ t) (hnf : v = .nan ∨ v = .ninf) :
    (t.foldl NpVal.min2 a).isfinite = false := by
  induction t generalizing a with
  | nil => cases hv
  | cons b t ih =>
    rcases List.mem_cons.mp hv with rfl | hmem
    · rcases hnf with rfl | rfl
      · exact foldl_min2_absorb t (Or.inl (min2_nan_right a))
      · exact foldl_min2_absorb t (min2_ninf_right a)
    · exact ih _ hmem

lemma npAmin_nonfinite {l : List NpVal} {v : NpVal} (hv : v ∈ l)
    (hnf : v = .nan ∨ v = .ninf) : (npAmin l).isfinite = false := by
  cases l with
  | nil => cases hv
  | cons a t =>
    rw [npAmin]
    rcases List.mem_cons.mp hv with rfl | hmem
    · exact foldl_min2_absorb t hnf
    · exact foldl_min2_mem_nonfinite t a hmem hnf

lemma max2_nan_left (b : NpVal) : NpVal.max2 .nan b = .nan := by cases b <;> rfl

lemma max2_nan_right (a : NpVal) : NpVal.max2 a .nan = .nan := by cases a <;> rfl

lemma max2_inf_right (a : NpVal) :
    NpVal.max2 a .inf = .nan ∨ NpVal.max2 a .inf = .inf := by
  cases a with
  | finite q => exact Or.inr rfl
  | nan => exact Or.inl rfl
  | inf => exact Or.inr rfl
  | ninf => exact Or.inr rfl

lemma max2_absorb {a : NpVal} (h : a = .nan ∨ a = .inf) (b : NpVal) :
    NpVal.max2 a b = .nan ∨ NpVal.max2 a b = .inf := by
  rcases h with rfl | rfl
  · exact Or.inl (max2_nan_left b)
  · cases b with
    | finite q => exact Or.inr rfl
    | nan => exact Or.inl (max2_nan_right _)
    | inf => exact Or.inr rfl
    | ninf => exact Or.inr rfl

lemma foldl_max2_absorb (t : List NpVal) {a : NpVal} (h : a = .nan ∨ a = .inf) :
    (t.foldl NpVal.max2 a).isfinite = false := by
  induction t generalizing a with
  | nil => rcases h with rfl | rfl <;> rfl
  | cons b t ih => exact ih (max2_absorb h b)

lemma foldl_max2_mem_nonfinite (t : List NpVal) (a : NpVal) {v : NpVal}
    (hv : v ∈ t) (hnf : v = .nan ∨ v = .inf) :
    (t.foldl NpVal.max2 a).isfinite = false := by
  induction t generalizing a with
  | nil => cases hv
  | cons b t ih =>
    rcases List.mem_cons.mp hv with rfl | hmem
    · rcases hnf with rfl | rfl
      · exact foldl_max2_absorb t (Or.inl (max2_nan_right a))
      · exact foldl_max2_absorb t (max2_inf_right a)
    · exact ih _ hmem

lemma npAmax_nonfinite {l : List NpVal} {v : NpVal} (hv : v ∈ l)
    (hnf : v = .nan ∨ v = .inf) : (npAmax l).isfinite = false := by
  cases l with
  | nil => cases hv
  | cons a t =>
    rw [npAmax]
    rcases List.mem_cons.mp hv with rfl | hmem
    · exact foldl_max2_absorb t hnf
    · exact foldl_max2_mem_nonfinite t a hmem hnf

lemma bounds_nonfinite {l : List NpVal} {v : NpVal} (hv : v ∈ l)
    (h : v.isfinite = false) :
    ((npAmin l).isfinite && (npAmax l).isfinite) = false := by
  cases v with
  | finite q => simp [NpVal.isfinite] at h
  | nan => rw [npAmin_nonfinite hv (Or.inl rfl)]; rfl
  | inf => rw [npAmax_nonfinite hv (Or.inr rfl), Bool.and_false]
  | ninf => rw [npAmin_nonfinite hv (Or.inr rfl)]; rfl

lemma all_finite_exists {l : List NpVal} (h : ∀ v ∈ l, v.isfinite = true) :
    ∃ l' : List ℚ, l = l'.map NpVal.finite := by
  induction l with
  | nil => exact ⟨[], rfl⟩
  | cons a t ih =>
    obtain ⟨qa, rfl⟩ := isfinite_iff.mp (h a (List.mem_cons_self a t))
    obtain ⟨t', rfl⟩ := ih fun v hv => h v (List.mem_cons_of_mem _ hv)
    exact ⟨qa :: t', rfl⟩

lemma syncTimes_finite (dt : ℚ) (fv : FillVal) (tss : List (List ℚ))
    (h1 : tss ≠ []) (h2 : ∀ ts ∈ tss, ts ≠ []) :
    syncTimes dt (tss.map fun ts => ts.map NpVal.finite) none fv
      = .ok (syncGrid dt (gmin tss) (gmax tss) fv) := by
  unfold syncTimes applyOffsets
  dsimp only
  rw [List.map_map]
  have hbody : ((fun ts => (npAmin ts, npAmax ts)) ∘ fun ts => ts.map NpVal.finite)
      = fun ts : List ℚ => (npAmin (ts.map NpVal.finite), npAmax (ts.map NpVal.finite)) :=
    rfl
  rw [hbody]
  have hall : ((tss.map fun ts =>
      (npAmin (ts.map NpVal.finite), npAmax (ts.map NpVal.finite))).all
        fun b => b.1.isfinite && b.2.isfinite) = true := by
    rw [List.all_eq_true]
    intro b hb
    obtain ⟨ts, hts, rfl⟩ := List.mem_map.mp hb
    rw [npAmin_map_finite (h2 ts hts), npAmax_map_finite (h2 ts hts)]
    rfl
  rw [if_pos hall]
  have hmapne : tss.map qMin ≠ [] := by
    intro hnil
    exact h1 (List.map_eq_nil_iff.mp hnil)
  have hmapne2 : tss.map qMax ≠ [] := by
    intro hnil
    exact h1 (List.map_eq_nil_iff.mp hnil)
  have hfst : (tss.map fun ts =>
      (npAmin (ts.map NpVal.finite), npAmax (ts.map NpVal.finite))).map Prod.fst
        = (tss.map qMin).map NpVal.finite := by
    rw [List.map_map, List.map_map]
    exact List.map_congr_left fun ts hts => npAmin_map_finite (h2 ts hts)
  have hsnd : (tss.map fun ts =>
      (npAmin (ts.map NpVal.finite), npAmax (ts.map NpVal.finite))).map Prod.snd
        = (tss.map qMax).map NpVal.finite := by
    rw [List.map_map, List.map_map]
    exact List.map_congr_left fun ts hts => npAmax_map_finite (h2 ts hts)
  rw [hfst, hsnd, npAmin_map_finite hmapne, npAmax_map_finite hmapne2]
  rfl

/-! ### Claim theorems -/

lemma binIndex_range {w lo hi v : ℚ} (hw : 0 < w) (hlo : lo ≤ v) (hhi : v ≤ hi) :
    0 ≤ binIndex lo w v ∧
    binIndex lo w v < ((arange lo (hi + w / 2) w).length : ℤ) := by
  refine ⟨Int.floor_nonneg.mpr (div_nonneg (sub_nonneg.mpr hlo) (le_of_lt hw)), ?_⟩
  rw [length_arange]
  have hkey : (hi + w / 2 - lo) / w = (hi - lo) / w + 1 / 2 := by
    field_simp
    ring
  have hlo_hi : lo ≤ hi := le_trans hlo hhi
  have hs : (0 : ℚ) ≤ (hi - lo) / w := div_nonneg (by linarith) (le_of_lt hw)
  have hlen : ((arangeLen lo (hi + w / 2) w : ℤ)) = ⌈(hi - lo) / w + 1 / 2⌉ := by
    rw [arangeLen, hkey]
    exact Int.toNat_of_nonneg (Int.ceil_nonneg (by linarith))
  rw [arangeLen, hkey] at hlen ⊢
  rw [hlen]
  have h1 : ((⌊(v - lo) / w⌋ : ℚ)) ≤ (hi - lo) / w :=
    le_trans (Int.floor_le _) ((div_le_div_iff_of_pos_right hw).mpr (by linarith))
  have h2 : (hi - lo) / w < (hi - lo) / w + 1 / 2 := by linarith
  have h3 : ((hi - lo) / w + 1 / 2) ≤ ((⌈(hi - lo) / w + 1 / 2⌉ : ℚ)) := Int.le_ceil _
  have h4 : ((⌊(v - lo) / w⌋ : ℚ)) < ((⌈(hi - lo) / w + 1 / 2⌉ : ℚ)) := by linarith
  exact_mod_cast h4

/-- Claim C1: for `bincount2D` with a positive bin width `w` on an axis with
range `lo ≤ v ≤ hi`, the axis scale is `np.arange lo (hi + w/2) w`, the value
`v` is assigned the bin index `floor ((v - lo) / w)`, and this index lies in
`[0, N - 1]` for `N` the length of the scale; in particular `v = hi` lands in
the last valid bin and no in-range value produces an out-of-bounds index. -/
theorem claim_C1 (w lo hi v : ℚ) (hw : 0 < w) (hlo : lo ≤ v) (hhi : v ≤ hi) :
    scaleIndex [v] w (lo, hi) = (arange lo (hi + w / 2) w, [binIndex lo w v]) ∧
    0 ≤ binIndex lo w v ∧
    binIndex lo w v < ((arange lo (hi + w / 2) w).length : ℤ) :=
  ⟨by simp [scaleIndex, ne_of_gt hw], (binIndex_range hw hlo hhi).1,
    (binIndex_range hw hlo hhi).2⟩

/-- Witness for C1 at `w = 1`, `lo = 0`, `hi = 2`, `v = hi = 2`. -/
theorem claim_C1_witness :
    scaleIndex [2] 1 (0, 2) = (arange 0 (2 + 1 / 2) 1, [binIndex 0 1 2]) ∧
    0 ≤ binIndex 0 1 2 ∧
    binIndex 0 1 2 < ((arange 0 (2 + 1 / 2) 1).length : ℤ) :=
  claim_C1 1 0 2 2 one_pos (by norm_num) (by norm_num)

lemma defaultLim_none {l : List ℚ} (h : l ≠ []) :
    defaultLim l none = .ok (qMin l, qMax l) := by
  cases l with
  | nil => exact absurd rfl h
  | cons a t => rfl

lemma scaleIndex_zero (v : List ℚ) (lim : ℚ × ℚ) :
    scaleIndex v 0 lim = (npUnique v, v.map fun t => ((npUnique v).indexOf t : ℤ)) := by
  simp [scaleIndex]

lemma zeroIndex_range {v : List ℚ} {lim : ℚ × ℚ} {i : ℤ}
    (hi : i ∈ (scaleIndex v 0 lim).2) :
    0 ≤ i ∧ i < ((scaleIndex v 0 lim).1.length : ℤ) := by
  rw [scaleIndex_zero] at hi
  obtain ⟨t, ht, rfl⟩ := List.mem_map.mp hi
  rw [scaleIndex_zero]
  refine ⟨Int.ofNat_nonneg _, ?_⟩
  exact_mod_cast List.indexOf_lt_length.mpr (mem_npUnique.mpr ht)

lemma sum_map_one {α : Type} (l : List α) : (l.map fun _ => (1 : ℕ)).sum = l.length := by
  induction l with
  | nil => rfl
  | cons a t ih =>
    rw [List.map_cons, List.sum_cons, ih, List.length_cons]
    omega

lemma partition_count {α : Type} (key : α → ℕ) (l : List α) (n : ℕ)
    (h : ∀ a ∈ l, key a < n) :
    ((List.range n).map fun k => (l.filter fun a => key a = k).length).sum = l.length := by
  have hps := partition_sum key (fun _ => (1 : ℕ)) l n h
  rw [sum_map_one] at hps
  rw [← hps]
  congr 1
  refine List.map_congr_left fun k _ => ?_
  rw [sum_map_one]

/-- Claim C3: for bin width 0 on both axes, `bincount2D` is a group-by-sum
over exact value equality: the call succeeds on equal-length nonempty inputs
and the sum over all grid cells equals the number of input values (unweighted)
or the sum of the weights (weighted). -/
theorem claim_C3 (x y : List ℚ) (weights : Option (List ℚ)) (hx : x ≠ [])
    (hlen : x.length = y.length)
    (hw : ∀ ws, weights = some ws → ws.length = x.length) :
    ∃ res, bincount2D x y 0 0 none none weights = .ok res ∧
      (weights = none → (res.grid.map List.sum).sum = (x.length : ℚ)) ∧
      (∀ ws, weights = some ws → (res.grid.map List.sum).sum = ws.sum) := by
  have hy : y ≠ [] := by
    intro hnil
    rw [hnil] at hlen
    exact hx (List.eq_nil_of_length_eq_zero (by simpa using hlen))
  have hrange : ∀ p ∈ (scaleIndex y 0 (qMin y, qMax y)).2.zip
      (scaleIndex x 0 (qMin x, qMax x)).2,
      0 ≤ p.1 ∧ p.1 < ((scaleIndex y 0 (qMin y, qMax y)).1.length : ℤ) ∧
      0 ≤ p.2 ∧ p.2 < ((scaleIndex x 0 (qMin x, qMax x)).1.length : ℤ) := by
    intro p hp
    obtain ⟨h1, h2⟩ := List.of_mem_zip hp
    obtain ⟨hy1, hy2⟩ := zeroIndex_range h1
    obtain ⟨hx1, hx2⟩ := zeroIndex_range h2
    exact ⟨hy1, hy2, hx1, hx2⟩
  have hok := bincount2D_ok x y 0 0 none none weights _ _
    (defaultLim_none hx) (defaultLim_none hy) hrange
  refine ⟨_, hok, ?_, ?_⟩ <;> dsimp only
  · intro hnone
    subst hnone
    rw [reshape_sum _ _ _ (by rw [npBincount_length]; exact Nat.mul_comm _ _),
      npBincount_sum]
    · rw [Option.getD_none, List.sum_replicate, nsmul_eq_mul, mul_one]
    · intro i hi
      obtain ⟨p, hp, rfl⟩ := List.mem_map.mp hi
      exact ravel_encode_lt (hrange p hp)
    · rw [List.length_map, Option.getD_none, List.length_replicate, List.length_zip,
        scaleIndex_zero, scaleIndex_zero]
      simp only [List.length_map]
      omega
  · intro ws hws
    subst hws
    rw [reshape_sum _ _ _ (by rw [npBincount_length]; exact Nat.mul_comm _ _),
      npBincount_sum]
    · rw [Option.getD_some]
    · intro i hi
      obtain ⟨p, hp, rfl⟩ := List.mem_map.mp hi
      exact ravel_encode_lt (hrange p hp)
    · rw [List.length_map, Option.getD_some, List.length_zip,
        scaleIndex_zero, scaleIndex_zero]
      simp only [List.length_map]
      have := hw ws rfl
      omega

/-- Witness for C3 on the spec's concrete scenario `x = [0,0,1,1,2]`,
`y = [0,1,0,1,0]` with no weights. -/
theorem claim_C3_witness :
    ∃ res, bincount2D [0, 0, 1, 1, 2] [0, 1, 0, 1, 0] 0 0 none none none = .ok res ∧
      ((none : Option (List ℚ)) = none → (res.grid.map List.sum).sum =
        (([0, 0, 1, 1, 2] : List ℚ).length : ℚ)) ∧
      (∀ ws : List ℚ, (none : Option (List ℚ)) = some ws →
        (res.grid.map List.sum).sum = ws.sum) :=
  claim_C3 [0, 0, 1, 1, 2] [0, 1, 0, 1, 0] none (List.cons_ne_nil _ _) rfl
    (fun _ws h => Option.noConfusion h)

/-- Claim C6: `get_units_bunch` partitions every feature array: the lengths of
the per-unit sub-arrays over the unit ids `0 .. max clusters` sum to the
length of the original feature array, so no spike is dropped or duplicated. -/
theorem claim_C6 (clusters : List ℕ) (feat : List ℚ) (_hne : clusters ≠ [])
    (hlen : feat.length = clusters.length) :
    ((unitsBunchFeature clusters feat).map fun kv => kv.2.length).sum = feat.length := by
  rw [unitsBunchFeature, List.map_map]
  have hcomp : ((fun kv : String × List ℚ => kv.2.length) ∘
      fun u => (toString u, selectUnit clusters feat u))
        = fun u => ((clusters.zip feat).filter fun p => p.1 = u).length := by
    funext u
    simp [Function.comp, selectUnit]
  rw [hcomp, partition_count Prod.fst (clusters.zip feat) (natMax clusters + 1)
      (fun p hp => Nat.lt_succ_of_le (le_natMax (List.of_mem_zip hp).1)),
    List.length_zip]
  omega

/-- Witness for C6 at `clusters = [0,2,0,1]`, `feat = [10,20,30,40]`. -/
theorem claim_C6_witness :
    ((unitsBunchFeature [0, 2, 0, 1] [10, 20, 30, 40]).map fun kv => kv.2.length).sum
      = ([10, 20, 30, 40] : List ℚ).length :=
  claim_C6 [0, 2, 0, 1] [10, 20, 30, 40] (List.cons_ne_nil _ _) rfl

/-- Claim C7: the per-feature mapping of `get_units_bunch` has exactly the
stringified keys `0 .. max clusters` inclusive, in order, and an unobserved
unit id in that range is present with an empty sub-array rather than absent. -/
theorem claim_C7 (clusters : List ℕ) (feat : List ℚ) (u : ℕ) (_hne : clusters ≠ [])
    (hu : u < natMax clusters + 1) (hobs : u ∉ clusters) :
    (unitsBunchFeature clusters feat).map Prod.fst
        = (List.range (natMax clusters + 1)).map toString ∧
    (toString u, ([] : List ℚ)) ∈ unitsBunchFeature clusters feat := by
  constructor
  · rw [unitsBunchFeature, List.map_map]
    rfl
  · have hsel : selectUnit clusters feat u = [] := by
      rw [selectUnit]
      have hfil : (clusters.zip feat).filter (fun p => p.1 = u) = [] := by
        refine List.filter_eq_nil_iff.mpr fun p hp => ?_
        have hmem := (List.of_mem_zip hp).1
        simp only [decide_eq_true_eq]
        exact fun h => hobs (h ▸ hmem)
      rw [hfil]
      rfl
    rw [unitsBunchFeature]
    refine List.mem_map.mpr ⟨u, List.mem_range.mpr hu, ?_⟩
    rw [hsel]

/-- Witness for C7 at `clusters = [0,2]` and the unobserved id `u = 1`. -/
theorem claim_C7_witness :
    (unitsBunchFeature [0, 2] [5, 7]).map Prod.fst
        = (List.range (natMax [0, 2] + 1)).map toString ∧
    (toString 1, ([] : List ℚ)) ∈ unitsBunchFeature [0, 2] [5, 7] :=
  claim_C7 [0, 2] [5, 7] 1 (List.cons_ne_nil _ _) (by decide) (by decide)

lemma scaleIndex_pos {bin : ℚ} (hbin : bin ≠ 0) (v : List ℚ) (lim : ℚ × ℚ) :
    scaleIndex v bin lim
      = (arange lim.1 (lim.2 + bin / 2) bin, v.map fun t => binIndex lim.1 bin t) := by
  rw [scaleIndex, if_pos hbin]

/-- Claim C10: for `bincount2D` with a positive bin width and explicit limits
on the x axis, an input value whose computed bin index falls outside the scale
(negative, which happens exactly for values below the lower bound, or at least
the scale length) makes the call raise the error of the flattened-index
computation: the result is an error and no grid is returned. -/
theorem claim_C10 (x y : List ℚ) (xbin ybin : ℚ) (xlo xhi : ℚ)
    (ylim : Option (ℚ × ℚ)) (weights : Option (List ℚ)) (v : ℚ)
    (hb : 0 < xbin) (hlen : x.length = y.length) (hv : v ∈ x)
    (hout : binIndex xlo xbin v < 0 ∨
      ((arange xlo (xhi + xbin / 2) xbin).length : ℤ) ≤ binIndex xlo xbin v) :
    (binIndex xlo xbin v < 0 ↔ v < xlo) ∧
    ∃ msg, bincount2D x y xbin ybin (some (xlo, xhi)) ylim weights = .error msg := by
  constructor
  · rw [binIndex]
    constructor
    · intro h
      have h2 : (v - xlo) / xbin < 0 := by
        by_contra hcon
        push_neg at hcon
        exact absurd (Int.floor_nonneg.mpr hcon) (by omega)
      have := (div_lt_iff₀ hb).mp h2
      linarith
    · intro h
      have h2 : (v - xlo) / xbin < 0 := (div_lt_iff₀ hb).mpr (by linarith)
      have : ¬(0 ≤ ⌊(v - xlo) / xbin⌋) := fun hge =>
        absurd (Int.floor_nonneg.mp hge) (by linarith)
      omega
  · cases hyl : defaultLim y ylim with
    | error e =>
      refine ⟨e, ?_⟩
      unfold bincount2D
      rw [show defaultLim x (some (xlo, xhi)) = .ok (xlo, xhi) from rfl, hyl]
    | ok yl =>
      obtain ⟨i, hix, hiv⟩ := List.getElem_of_mem hv
      have hxind : (scaleIndex x xbin (xlo, xhi)).2[i]? = some (binIndex xlo xbin v) := by
        rw [scaleIndex_pos (ne_of_gt hb), List.getElem?_map,
          List.getElem?_eq_getElem hix, Option.map_some', hiv]
      have hylen : i < (scaleIndex y ybin yl).2.length := by
        have h1 : (scaleIndex y ybin yl).2.length = y.length := by
          rcases eq_or_ne ybin 0 with h0 | h0
          · rw [h0, scaleIndex_zero, List.length_map]
          · rw [scaleIndex_pos h0, List.length_map]
        omega
      have hjex : ∃ j, (scaleIndex y ybin yl).2[i]? = some j :=
        ⟨_, List.getElem?_eq_getElem hylen⟩
      obtain ⟨j, hj⟩ := hjex
      have hpair : ((scaleIndex y ybin yl).2.zip
          (scaleIndex x xbin (xlo, xhi)).2)[i]? = some (j, binIndex xlo xbin v) := by
        rw [List.getElem?_zip_eq_some]
        exact ⟨hj, hxind⟩
      have hmem := List.getElem?_mem hpair
      have hbad : ¬(0 ≤ (j, binIndex xlo xbin v).1 ∧
          (j, binIndex xlo xbin v).1 < ((scaleIndex y ybin yl).1.length : ℤ) ∧
          0 ≤ (j, binIndex xlo xbin v).2 ∧
          (j, binIndex xlo xbin v).2 <
            ((scaleIndex x xbin (xlo, xhi)).1.length : ℤ)) := by
        rintro ⟨h1, h2, h3, h4⟩
        rw [scaleIndex_pos (ne_of_gt hb)] at h4
        dsimp only at h4
        rcases hout with h | h
        · omega
        · exact absurd h4 (by omega)
      obtain ⟨e, he⟩ := ravelPairs_err _ _ hmem hbad
      refine ⟨e, ?_⟩
      unfold bincount2D ravelMultiIndex
      rw [show defaultLim x (some (xlo, xhi)) = .ok (xlo, xhi) from rfl, hyl]
      dsimp only
      rw [he]

/-- Witness for C10: the out-of-range value `v = 5` with explicit x limits
`[0, 2]` and bin width 1. -/
theorem claim_C10_witness :
    (binIndex 0 1 5 < 0 ↔ (5 : ℚ) < 0) ∧
    ∃ msg, bincount2D [5] [0] 1 0 (some (0, 2)) none none = .error msg :=
  claim_C10 [5] [0] 1 0 0 2 none none 5 one_pos rfl (List.mem_singleton.mpr rfl)
    (Or.inr (by
      rw [length_arange, arangeLen, binIndex]
      have h1 : ((2 : ℚ) + 1 / 2 - 0) / 1 = 5 / 2 := by norm_num
      have h2 : ((5 : ℚ) - 0) / 1 = 5 := by norm_num
      rw [h1, h2]
      have h3 : (⌈(5 : ℚ) / 2⌉) ≤ 3 := Int.ceil_le.mpr (by norm_num)
      have h4 : (5 : ℤ) ≤ ⌊(5 : ℚ)⌋ := by
        rw [show ((5 : ℚ)) = ((5 : ℤ) : ℚ) by norm_num, Int.floor_intCast]
      omega))

/-- Claim C2: with a fill value other than extrapolate, the shared grid of
`sync` is `np.arange` from the global minimum to the global maximum timestamp,
stepped by `dt`: its first point is the global minimum, every point lies
strictly below the global maximum, and the last point is within one `dt` step
of the global maximum, so the grid covers the data span up to the global
maximum. -/
theorem claim_C2 (dt : ℚ) (fv : FillVal) (tss : List (List ℚ))
    (h1 : tss ≠ []) (h2 : ∀ ts ∈ tss, ts ≠ []) (hdt : 0 < dt)
    (hfv : fv ≠ FillVal.extrapolate) (hspan : gmin tss < gmax tss) :
    syncTimes dt (tss.map fun ts => ts.map NpVal.finite) none fv
        = .ok (arange (gmin tss) (gmax tss) dt) ∧
    (arange (gmin tss) (gmax tss) dt)[0]? = some (gmin tss) ∧
    (∀ t ∈ arange (gmin tss) (gmax tss) dt, t < gmax tss) ∧
    ∃ tl, (arange (gmin tss) (gmax tss) dt).getLast? = some tl ∧
      gmax tss ≤ tl + dt := by
  have hlen := arangeLen_pos hdt hspan
  refine ⟨?_, ?_, ?_, ?_⟩
  · rw [syncTimes_finite dt fv tss h1 h2, syncGrid, if_neg hfv]
  · have h0 := arange_getElem? (gmin tss) (gmax tss) dt hlen
    simpa using h0
  · intro t ht
    obtain ⟨k, hk, rfl⟩ := mem_arange.mp ht
    exact arange_lt_of_lt_len hdt hk
  · refine ⟨_, arange_getLast? _ _ _ hlen, ?_⟩
    have hceil : ((arangeLen (gmin tss) (gmax tss) dt : ℤ))
        = ⌈(gmax tss - gmin tss) / dt⌉ := cast_arangeLen hdt hspan
    have hle : (gmax tss - gmin tss) / dt
        ≤ ((arangeLen (gmin tss) (gmax tss) dt : ℚ)) := by
      have h4 := Int.le_ceil ((gmax tss - gmin tss) / dt)
      have h5 : ((arangeLen (gmin tss) (gmax tss) dt : ℚ))
          = ((⌈(gmax tss - gmin tss) / dt⌉ : ℚ)) := by exact_mod_cast hceil
      rw [h5]
      exact h4
    have h6 : gmax tss - gmin tss
        ≤ (arangeLen (gmin tss) (gmax tss) dt : ℚ) * dt := by
      have h7 := (div_le_iff₀ hdt).mp hle
      linarith
    linarith

/-- Witness for C2 with the single series `[0, 5]` and `dt = 2`. -/
theorem claim_C2_witness :
    syncTimes 2 ([[0, 5]].map fun ts => ts.map NpVal.finite) none (.const .nan)
        = .ok (arange (gmin [[0, 5]]) (gmax [[0, 5]]) 2) ∧
    (arange (gmin [[0, 5]]) (gmax [[0, 5]]) 2)[0]? = some (gmin [[0, 5]]) ∧
    (∀ t ∈ arange (gmin [[0, 5]]) (gmax [[0, 5]]) 2, t < gmax [[0, 5]]) ∧
    ∃ tl, (arange (gmin [[0, 5]]) (gmax [[0, 5]]) 2).getLast? = some tl ∧
      gmax [[0, 5]] ≤ tl + 2 :=
  claim_C2 2 (.const .nan) [[0, 5]] (List.cons_ne_nil _ _)
    (by
      intro ts hts
      rw [List.mem_singleton] at hts
      subst hts
      exact List.cons_ne_nil _ _)
    (by norm_num) (fun h => FillVal.noConfusion h)
    (by norm_num [gmin, gmax, qMin, qMax])

lemma syncGrid_extrapolate_span (dt tmin tmax : ℚ) (hdt : 0 < dt)
    (hspan : tmin ≤ tmax) :
    ∃ t0 tl, (syncGrid dt tmin tmax .extrapolate)[0]? = some t0 ∧
      (syncGrid dt tmin tmax .extrapolate).getLast? = some tl ∧
      (∃ k : ℕ, tl - t0 = (k : ℚ) * dt) ∧ tmax - tmin ≤ tl - t0 := by
  set s : ℚ := tmax - tmin with hs
  set r : ℚ := qmod s dt with hrdef
  have hgrid : syncGrid dt tmin tmax .extrapolate
      = arange tmin (tmax + fudge * (dt - r)) dt := by
    rw [syncGrid, if_pos rfl]
  have hdtmul : dt * (s / dt) = s := by field_simp
  have hq0 : (0 : ℤ) ≤ ⌊s / dt⌋ :=
    Int.floor_nonneg.mpr (div_nonneg (by rw [hs]; linarith) hdt.le)
  have hr0 : 0 ≤ r := by
    rw [hrdef, qmod]
    have h := Int.floor_le (s / dt)
    have h2 : dt * ((⌊s / dt⌋ : ℚ)) ≤ dt * (s / dt) :=
      mul_le_mul_of_nonneg_left h hdt.le
    rw [hdtmul] at h2
    linarith
  have hr1 : r < dt := by
    rw [hrdef, qmod]
    have h := Int.lt_floor_add_one (s / dt)
    have h2 : dt * (s / dt) < dt * ((⌊s / dt⌋ : ℚ) + 1) :=
      mul_lt_mul_of_pos_left h hdt
    rw [hdtmul] at h2
    nlinarith
  have hfudge : (1 : ℚ) < fudge := by norm_num [fudge]
  have hsr : s = dt * ⌊s / dt⌋ + r := by
    rw [hrdef, qmod]
    ring
  have hB : ((⌊s / dt⌋ : ℚ) + 1) * dt < s + fudge * (dt - r) := by
    have hpos : 0 < dt - r := by linarith
    have hkey : dt - r < fudge * (dt - r) := by nlinarith
    nlinarith
  have hUB : (tmax + fudge * (dt - r)) - tmin = s + fudge * (dt - r) := by
    rw [hs]
    ring
  have hBpos : (0 : ℚ) < s + fudge * (dt - r) := by nlinarith
  have hn : arangeLen tmin (tmax + fudge * (dt - r)) dt
      = (⌈(s + fudge * (dt - r)) / dt⌉).toNat := by
    rw [arangeLen, hUB]
  have hnz : ⌊s / dt⌋ + 1 < ⌈(s + fudge * (dt - r)) / dt⌉ := by
    rw [Int.lt_ceil]
    push_cast
    rw [lt_div_iff₀ hdt]
    exact hB
  have hcast : ((arangeLen tmin (tmax + fudge * (dt - r)) dt : ℤ))
      = ⌈(s + fudge * (dt - r)) / dt⌉ := by
    rw [hn]
    exact Int.toNat_of_nonneg (Int.ceil_nonneg (div_nonneg hBpos.le hdt.le))
  have hpos : 0 < arangeLen tmin (tmax + fudge * (dt - r)) dt := by
    omega
  refine ⟨tmin, tmin + ((arangeLen tmin (tmax + fudge * (dt - r)) dt : ℚ) - 1) * dt,
    ?_, ?_, ?_, ?_⟩
  · rw [hgrid]
    have h0 := arange_getElem? tmin (tmax + fudge * (dt - r)) dt hpos
    simpa using h0
  · rw [hgrid]
    exact arange_getLast? _ _ _ hpos
  · refine ⟨arangeLen tmin (tmax + fudge * (dt - r)) dt - 1, ?_⟩
    have h1 : 1 ≤ arangeLen tmin (tmax + fudge * (dt - r)) dt := hpos
    rw [Nat.cast_sub h1]
    push_cast
    ring
  · have hq : (⌊s / dt⌋ : ℚ) + 2
        ≤ (arangeLen tmin (tmax + fudge * (dt - r)) dt : ℚ) := by
      have h8 : ((⌊s / dt⌋ + 2 : ℤ) : ℚ)
          ≤ ((arangeLen tmin (tmax + fudge * (dt - r)) dt : ℤ) : ℚ) := by
        have h9 : ⌊s / dt⌋ + 2 ≤ (arangeLen tmin (tmax + fudge * (dt - r)) dt : ℤ) := by
          omega
        exact_mod_cast h9
      push_cast at h8
      linarith
    have hstep : ((⌊s / dt⌋ : ℚ) + 1) * dt
        ≤ ((arangeLen tmin (tmax + fudge * (dt - r)) dt : ℚ) - 1) * dt :=
      mul_le_mul_of_nonneg_right (by linarith) hdt.le
    nlinarith

/-- Claim C4: with the extrapolate fill policy the grid of `sync` spans a
whole number of `dt` steps at least as large as the data span: the difference
between the last and first grid points is a natural multiple of `dt` and is at
least the global maximum minus the global minimum, so no partial bin is
dropped. -/
theorem claim_C4 (dt : ℚ) (tss : List (List ℚ))
    (h1 : tss ≠ []) (h2 : ∀ ts ∈ tss, ts ≠ []) (hdt : 0 < dt)
    (hspan : gmin tss ≤ gmax tss) :
    syncTimes dt (tss.map fun ts => ts.map NpVal.finite) none FillVal.extrapolate
        = .ok (syncGrid dt (gmin tss) (gmax tss) FillVal.extrapolate) ∧
    ∃ t0 tl,
      (syncGrid dt (gmin tss) (gmax tss) FillVal.extrapolate)[0]? = some t0 ∧
      (syncGrid dt (gmin tss) (gmax tss) FillVal.extrapolate).getLast? = some tl ∧
      (∃ k : ℕ, tl - t0 = (k : ℚ) * dt) ∧
      gmax tss - gmin tss ≤ tl - t0 :=
  ⟨syncTimes_finite dt .extrapolate tss h1 h2,
    syncGrid_extrapolate_span dt (gmin tss) (gmax tss) hdt hspan⟩

/-- Witness for C4 with the single series `[0, 5/2]` sampled against `dt = 1`. -/
theorem claim_C4_witness :
    syncTimes 1 ([[0, 5 / 2]].map fun ts => ts.map NpVal.finite) none
        FillVal.extrapolate
      = .ok (syncGrid 1 (gmin [[0, 5 / 2]]) (gmax [[0, 5 / 2]]) FillVal.extrapolate) ∧
    ∃ t0 tl,
      (syncGrid 1 (gmin [[0, 5 / 2]]) (gmax [[0, 5 / 2]]) FillVal.extrapolate)[0]?
        = some t0 ∧
      (syncGrid 1 (gmin [[0, 5 / 2]]) (gmax [[0, 5 / 2]]) FillVal.extrapolate).getLast?
        = some tl ∧
      (∃ k : ℕ, tl - t0 = (k : ℚ) * 1) ∧
      gmax [[0, 5 / 2]] - gmin [[0, 5 / 2]] ≤ tl - t0 :=
  claim_C4 1 [[0, 5 / 2]] (List.cons_ne_nil _ _)
    (by
      intro ts hts
      rw [List.mem_singleton] at hts
      subst hts
      exact List.cons_ne_nil _ _)
    (by norm_num) (by norm_num [gmin, gmax, qMin, qMax])

lemma boundsAll_iff {T : List (List NpVal)} (hTel : ∀ ts ∈ T, ts ≠ []) :
    ((T.map fun ts => (npAmin ts, npAmax ts)).all
        fun b => b.1.isfinite && b.2.isfinite) = true
      ↔ ∀ ts ∈ T, ∀ v ∈ ts, v.isfinite = true := by
  rw [List.all_eq_true]
  constructor
  · intro h ts hts v hv
    by_contra hvf
    have hfalse : v.isfinite = false := by
      cases hviso : v.isfinite
      · rfl
      · exact absurd hviso hvf
    have hb := h _ (List.mem_map.mpr ⟨ts, hts, rfl⟩)
    dsimp only at hb
    rw [bounds_nonfinite hv hfalse] at hb
    exact Bool.noConfusion hb
  · intro h b hb
    obtain ⟨ts, hts, rfl⟩ := List.mem_map.mp hb
    obtain ⟨l', rfl⟩ := all_finite_exists (h ts hts)
    have hl' : l' ≠ [] := by
      intro hnil
      exact hTel _ hts (by rw [hnil]; rfl)
    dsimp only
    rw [npAmin_map_finite hl', npAmax_map_finite hl']
    rfl

lemma syncTimes_ok_of_all_finite {dt : ℚ} {fv : FillVal} {tss : List (List NpVal)}
    {offs : Option (List ℚ)} (hTne : applyOffsets tss offs ≠ [])
    (hTel : ∀ ts ∈ applyOffsets tss offs, ts ≠ [])
    (hfin : ∀ ts ∈ applyOffsets tss offs, ∀ v ∈ ts, v.isfinite = true) :
    ∃ g, syncTimes dt tss offs fv = .ok g := by
  unfold syncTimes
  dsimp only
  rw [if_pos ((boundsAll_iff hTel).mpr hfin)]
  have hfst : (((applyOffsets tss offs).map fun ts => (npAmin ts, npAmax ts)).map
      Prod.fst) = (applyOffsets tss offs).map fun ts => npAmin ts := by
    rw [List.map_map]
    rfl
  have hsnd : (((applyOffsets tss offs).map fun ts => (npAmin ts, npAmax ts)).map
      Prod.snd) = (applyOffsets tss offs).map fun ts => npAmax ts := by
    rw [List.map_map]
    rfl
  rw [hfst, hsnd]
  have hminfin : ∀ w ∈ (applyOffsets tss offs).map fun ts => npAmin ts,
      w.isfinite = true := by
    intro w hw
    obtain ⟨ts, hts, rfl⟩ := List.mem_map.mp hw
    obtain ⟨l', rfl⟩ := all_finite_exists (hfin ts hts)
    have hl' : l' ≠ [] := by
      intro hnil
      exact hTel _ hts (by rw [hnil]; rfl)
    rw [npAmin_map_finite hl']
    rfl
  have hmaxfin : ∀ w ∈ (applyOffsets tss offs).map fun ts => npAmax ts,
      w.isfinite = true := by
    intro w hw
    obtain ⟨ts, hts, rfl⟩ := List.mem_map.mp hw
    obtain ⟨l', rfl⟩ := all_finite_exists (hfin ts hts)
    have hl' : l' ≠ [] := by
      intro hnil
      exact hTel _ hts (by rw [hnil]; rfl)
    rw [npAmax_map_finite hl']
    rfl
  obtain ⟨lmin, hlm⟩ := all_finite_exists hminfin
  obtain ⟨lmax, hlx⟩ := all_finite_exists hmaxfin
  have hlmne : lmin ≠ [] := by
    intro hnil
    rw [hnil] at hlm
    exact hTne (List.map_eq_nil_iff.mp hlm)
  have hlxne : lmax ≠ [] := by
    intro hnil
    rw [hnil] at hlx
    exact hTne (List.map_eq_nil_iff.mp hlx)
  rw [hlm, hlx, npAmin_map_finite hlmne, npAmax_map_finite hlxne]
  exact ⟨_, rfl⟩

lemma syncTimes_error_of_nonfinite {dt : ℚ} {fv : FillVal} {tss : List (List NpVal)}
    {offs : Option (List ℚ)} (hTel : ∀ ts ∈ applyOffsets tss offs, ts ≠ [])
    (hbad : ∃ ts ∈ applyOffsets tss offs, ∃ v ∈ ts, v.isfinite = false) :
    syncTimes dt tss offs fv = .error nanMsg := by
  unfold syncTimes
  dsimp only
  rw [if_neg ?hc]
  case hc =>
    intro hall
    obtain ⟨ts, hts, v, hv, hvf⟩ := hbad
    have := (boundsAll_iff hTel).mp hall ts hts v hv
    rw [hvf] at this
    exact Bool.noConfusion this

/-- Claim C8: `sync` raises the non-finite ValueError exactly when some
timestamp (after per-series offsetting) is NaN or infinite, and this happens
at the bounds check of the timestamp pipeline, before the grid is built or any
interpolation onto it is performed; with all timestamps finite the pipeline
succeeds and no such error is raised. -/
theorem claim_C8 (dt : ℚ) (fv : FillVal) (tss : List (List NpVal))
    (offs : Option (List ℚ)) (h1 : tss ≠ []) (h2 : ∀ ts ∈ tss, ts ≠ [])
    (hoffs : ∀ os, offs = some os → os.length = tss.length) :
    (syncTimes dt tss offs fv = .error nanMsg ↔
      ∃ ts ∈ applyOffsets tss offs, ∃ v ∈ ts, v.isfinite = false) ∧
    ((∀ ts ∈ applyOffsets tss offs, ∀ v ∈ ts, v.isfinite = true) →
      ∃ g, syncTimes dt tss offs fv = .ok g) := by
  have hTne : applyOffsets tss offs ≠ [] := by
    cases offs with
    | none => exact h1
    | some os =>
      have hlen2 : (tss.zip os).length = tss.length := by
        rw [List.length_zip, hoffs os rfl]
        exact min_self _
      intro hnil
      rw [applyOffsets] at hnil
      have h0 := List.map_eq_nil_iff.mp hnil
      rw [h0] at hlen2
      exact h1 (List.eq_nil_of_length_eq_zero hlen2.symm)
  have hTel : ∀ ts ∈ applyOffsets tss offs, ts ≠ [] := by
    cases offs with
    | none => exact h2
    | some os =>
      intro ts hts
      rw [applyOffsets] at hts
      obtain ⟨p, hp, rfl⟩ := List.mem_map.mp hts
      intro hnil
      exact h2 p.1 (List.of_mem_zip hp).1 (List.map_eq_nil_iff.mp hnil)
  refine ⟨⟨?_, ?_⟩, ?_⟩
  · intro herr
    by_contra hno
    push_neg at hno
    have hfin : ∀ ts ∈ applyOffsets tss offs, ∀ v ∈ ts, v.isfinite = true := by
      intro ts hts v hv
      cases hviso : v.isfinite
      · exact absurd hviso (hno ts hts v hv)
      · rfl
    obtain ⟨g, hg⟩ := syncTimes_ok_of_all_finite hTne hTel hfin
    rw [hg] at herr
    exact Except.noConfusion herr
  · intro hbad
    exact syncTimes_error_of_nonfinite hTel hbad
  · intro hfin
    exact syncTimes_ok_of_all_finite hTne hTel hfin

/-- Witness for C8: a series containing NaN errors, an all-finite series does
not. -/
theorem claim_C8_witness :
    ((syncTimes 1 [[.finite 0, .nan]] none (.const .nan) = .error nanMsg ↔
      ∃ ts ∈ applyOffsets [[.finite 0, .nan]] none, ∃ v ∈ ts, v.isfinite = false) ∧
    ((∀ ts ∈ applyOffsets [[.finite 0, .nan]] none, ∀ v ∈ ts, v.isfinite = true) →
      ∃ g, syncTimes 1 [[.finite 0, .nan]] none (.const .nan) = .ok g)) ∧
    ((syncTimes 1 [[.finite 0, .finite 3]] none (.const .nan) = .error nanMsg ↔
      ∃ ts ∈ applyOffsets [[.finite 0, .finite 3]] none, ∃ v ∈ ts,
        v.isfinite = false) ∧
    ((∀ ts ∈ applyOffsets [[.finite 0, .finite 3]] none, ∀ v ∈ ts,
        v.isfinite = true) →
      ∃ g, syncTimes 1 [[.finite 0, .finite 3]] none (.const .nan) = .ok g)) :=
  ⟨claim_C8 1 (.const .nan) [[.finite 0, .nan]] none (List.cons_ne_nil _ _)
      (by
        intro ts hts
        rw [List.mem_singleton] at hts
        subst hts
        exact List.cons_ne_nil _ _)
      (fun _os h => Option.noConfusion h),
    claim_C8 1 (.const .nan) [[.finite 0, .finite 3]] none (List.cons_ne_nil _ _)
      (by
        intro ts hts
        rw [List.mem_singleton] at hts
        subst hts
        exact List.cons_ne_nil _ _)
      (fun _os h => Option.noConfusion h)⟩

lemma qMin_le_qMax {l : List ℚ} (h : l ≠ []) : qMin l ≤ qMax l := by
  cases l with
  | nil => exact absurd rfl h
  | cons a t =>
    exact le_trans (qMin_le (List.mem_cons_self a t)) (le_qMax (List.mem_cons_self a t))

lemma posIndex_range {v : List ℚ} {bin : ℚ} (hb : 0 < bin) {lim : ℚ × ℚ}
    (hlim1 : ∀ t ∈ v, lim.1 ≤ t) (hlim2 : ∀ t ∈ v, t ≤ lim.2) {i : ℤ}
    (hi : i ∈ (scaleIndex v bin lim).2) :
    0 ≤ i ∧ i < ((scaleIndex v bin lim).1.length : ℤ) := by
  rw [scaleIndex_pos (ne_of_gt hb)] at hi ⊢
  dsimp only at hi ⊢
  obtain ⟨t, ht, rfl⟩ := List.mem_map.mp hi
  exact binIndex_range hb (hlim1 t ht) (hlim2 t ht)

lemma transposeGrid_reshape_length (flat : List ℚ) (m nx : ℕ)
    (hflat : flat.length = (m + 1) * nx) :
    (transposeGrid (reshape flat (m + 1) nx)).length = nx := by
  have hr : reshape flat (m + 1) nx = flat.take nx :: reshape (flat.drop nx) m nx := rfl
  rw [hr, transposeGrid, List.length_map, List.length_range, List.length_take]
  have hsucc : (m + 1) * nx = m * nx + nx := by ring
  omega

lemma transposeGrid_reshape_length2 (flat : List ℚ) (ny nx : ℕ) (hny : 0 < ny)
    (hflat : flat.length = ny * nx) :
    (transposeGrid (reshape flat ny nx)).length = nx := by
  obtain ⟨m, rfl⟩ := Nat.exists_eq_succ_of_ne_zero (Nat.pos_iff_ne_zero.mp hny)
  exact transposeGrid_reshape_length flat m nx hflat

lemma arange_headD {lo hi step : ℚ} (h : 0 < arangeLen lo hi step) :
    (arange lo hi step).headD 0 = lo := by
  rw [List.headD_eq_head?, List.head?_eq_getElem?, arange_getElem? lo hi step h]
  norm_num

lemma arange_getLastD {lo hi step : ℚ} (h : 0 < arangeLen lo hi step) :
    (arange lo hi step).getLastD 0
      = lo + ((arangeLen lo hi step : ℚ) - 1) * step := by
  rw [List.getLastD_eq_getLast?, arange_getLast? lo hi step h]
  rfl

lemma intervalRange_arange (lo b : ℚ) (hb : 0 < b) (N : ℕ) (hN : 0 < N) :
    intervalRange lo (lo + ((N : ℚ) - 1) * b) b
      = (List.range (N - 1)).map fun k : ℕ =>
          (lo + (k : ℚ) * b, lo + ((k : ℚ) + 1) * b) := by
  rw [intervalRange]
  congr 1
  have h1 : (lo + ((N : ℚ) - 1) * b - lo) / b = (N : ℚ) - 1 := by
    rw [show lo + ((N : ℚ) - 1) * b - lo = ((N : ℚ) - 1) * b by ring,
      mul_div_cancel_right₀ _ (ne_of_gt hb)]
  rw [h1,
    show ((N : ℚ) - 1) = (((N - 1 : ℕ) : ℤ) : ℚ) by push_cast [Nat.cast_sub hN]; ring,
    Int.floor_intCast, Int.toNat_natCast]

/-- Claim C5: `bin_spikes` on a TimeSeries with a `clusters` attribute calls
`bincount2D` with the bin size on the time axis; when interval labels are
requested the last time bin is dropped (one fewer value row than time bins)
and the timestamps are the left-closed interval labels
`[t0 + k*binsize, t0 + (k+1)*binsize)`; otherwise all bins are kept and the
timestamps are the left bin edges. -/
theorem claim_C5 (times clusters : List ℚ) (binsize : ℚ) (hx : times ≠ [])
    (hb : 0 < binsize) (hlen : times.length = clusters.length) :
    ∃ res, bincount2D times clusters binsize 0 none none none = .ok res ∧
      bin_spikes (.ts times (some clusters)) binsize true
        = .ok ⟨.intervals ((List.range (res.xscale.length - 1)).map
            fun k : ℕ => (qMin times + (k : ℚ) * binsize,
              qMin times + ((k : ℚ) + 1) * binsize)),
          (transposeGrid res.grid).dropLast, res.yscale⟩ ∧
      (transposeGrid res.grid).dropLast.length = res.xscale.length - 1 ∧
      bin_spikes (.ts times (some clusters)) binsize false
        = .ok ⟨.edges res.xscale, transposeGrid res.grid, res.yscale⟩ ∧
      (transposeGrid res.grid).length = res.xscale.length := by
  have hy : clusters ≠ [] := by
    intro hnil
    rw [hnil] at hlen
    exact hx (List.eq_nil_of_length_eq_zero (by simpa using hlen))
  have hrange : ∀ p ∈ (scaleIndex clusters 0 (qMin clusters, qMax clusters)).2.zip
      (scaleIndex times binsize (qMin times, qMax times)).2,
      0 ≤ p.1 ∧
      p.1 < ((scaleIndex clusters 0 (qMin clusters, qMax clusters)).1.length : ℤ) ∧
      0 ≤ p.2 ∧
      p.2 < ((scaleIndex times binsize (qMin times, qMax times)).1.length : ℤ) := by
    intro p hp
    obtain ⟨h1, h2⟩ := List.of_mem_zip hp
    obtain ⟨hy1, hy2⟩ := zeroIndex_range h1
    obtain ⟨hx1, hx2⟩ := posIndex_range hb (fun t ht => qMin_le ht)
      (fun t ht => le_qMax ht) h2
    exact ⟨hy1, hy2, hx1, hx2⟩
  have hok := bincount2D_ok times clusters binsize 0 none none none _ _
    (defaultLim_none hx) (defaultLim_none hy) hrange
  rw [scaleIndex_pos (ne_of_gt hb), scaleIndex_zero] at hok
  dsimp only at hok
  rw [Option.getD_none] at hok
  have hny : 0 < (npUnique clusters).length :=
    List.length_pos.mpr (npUnique_ne_nil hy)
  have hN0 : 0 < arangeLen (qMin times) (qMax times + binsize / 2) binsize :=
    arangeLen_pos hb (by have := qMin_le_qMax hx; linarith)
  have hflat : (npBincount
      (((clusters.map fun t => ((npUnique clusters).indexOf t : ℤ)).zip
        (times.map fun t => binIndex (qMin times) binsize t)).map
          fun p => p.1.toNat *
            (arange (qMin times) (qMax times + binsize / 2) binsize).length + p.2.toNat)
      ((arange (qMin times) (qMax times + binsize / 2) binsize).length *
        (npUnique clusters).length)
      (List.replicate times.length 1)).length
        = (npUnique clusters).length *
          (arange (qMin times) (qMax times + binsize / 2) binsize).length := by
    rw [npBincount_length]
    exact Nat.mul_comm _ _
  refine ⟨_, hok, ?_, ?_, ?_, ?_⟩
  · rw [bin_spikes, hok]
    dsimp only
    rw [if_pos rfl, arange_headD hN0, arange_getLastD hN0, length_arange,
      intervalRange_arange _ _ hb _ hN0]
  · dsimp only
    rw [List.length_dropLast, transposeGrid_reshape_length2 _ _ _ hny hflat]
  · rw [bin_spikes, hok]
    dsimp only
    rw [if_neg (fun h => Bool.noConfusion h)]
  · dsimp only
    rw [transposeGrid_reshape_length2 _ _ _ hny hflat]

/-- Witness for C5 at `times = [1/10, 2/10, 3/10, 4/10]`,
`clusters = [0, 2, 0, 1]`, `binsize = 1/10`. -/
theorem claim_C5_witness :
    ∃ res, bincount2D [1/10, 2/10, 3/10, 4/10] [0, 2, 0, 1] (1/10) 0
        none none none = .ok res ∧
      bin_spikes (.ts [1/10, 2/10, 3/10, 4/10] (some [0, 2, 0, 1])) (1/10) true
        = .ok ⟨.intervals ((List.range (res.xscale.length - 1)).map
            fun k : ℕ => (qMin [1/10, 2/10, 3/10, 4/10] + (k : ℚ) * (1/10),
              qMin [1/10, 2/10, 3/10, 4/10] + ((k : ℚ) + 1) * (1/10))),
          (transposeGrid res.grid).dropLast, res.yscale⟩ ∧
      (transposeGrid res.grid).dropLast.length = res.xscale.length - 1 ∧
      bin_spikes (.ts [1/10, 2/10, 3/10, 4/10] (some [0, 2, 0, 1])) (1/10) false
        = .ok ⟨.edges res.xscale, transposeGrid res.grid, res.yscale⟩ ∧
      (transposeGrid res.grid).length = res.xscale.length :=
  claim_C5 [1/10, 2/10, 3/10, 4/10] [0, 2, 0, 1] (1/10) (List.cons_ne_nil _ _)
    (by norm_num) rfl

/-- Claim C9: `bin_spikes` raises the TypeError on any input that is not a
TimeSeries and the AttributeError on a TimeSeries lacking the `clusters`
attribute; in both cases the result is that error alone, for every bin size
and interval flag, so no binning is attempted. -/
theorem claim_C9 (times : List ℚ) (binsize : ℚ) (ii : Bool) :
    bin_spikes SpikeInput.notTS binsize ii = .error .typeErr ∧
    bin_spikes (SpikeInput.ts times none) binsize ii = .error .attrErr :=
  ⟨rfl, rfl⟩

end Brainbox
